import Mathlib

/-!
Verification of the sharded token-bucket rate limiter (`bucket.go`, `clock.go`).

The Go source is embedded shallowly:

* machine integers become `Nat`/`Int` with explicit reduction modulo `2 ^ w`
  wherever the Go code can overflow or wrap (`uint8` arithmetic in `refill`,
  the 64-bit FNV-1a multiply, the 56-bit wrapping timestamps);
* the `time56` package is not part of the sources given, so it is modelled
  from the specification's description of the wrapping 56-bit timestamp
  (each such definition carries a `Modelled from the spec:` doc comment);
* Go code that can panic (the `elapsed / rate` division in `refill` when the
  divisor is zero) returns `Option`, with `none` standing for a runtime panic;
* the clock (`nowfn` in `clock.go`) is injected: every operation takes the
  nanosecond reading `nowNS : Int` it would obtain from `nowfn().UnixNano()`;
* the CAS retry loop of `takeTokenInner` is modelled twice: as the sequential
  function it computes when a single caller runs alone, and as an interleaved
  small-step transition system of several threads racing on one bucket word
  for the concurrency claims.
-/

namespace Rate

namespace time56

/-- `2 ^ 56`, the modulus of the reduced-width timestamp. -/
def modulus : Nat := 2 ^ 56

/-- `2 ^ 55`, the signed-reinterpretation threshold: wrapped differences at or
above this value are read as negative. -/
def half : Nat := 2 ^ 55

/-- Modelled from the spec: `time56.Unix` reduces an absolute nanosecond
reading to the 56-bit wrapping timestamp, i.e. the value modulo `2 ^ 56`
(for a negative `int64` this agrees with taking the low 56 bits of its
two's-complement image, since `2 ^ 56` divides `2 ^ 64`). -/
def unix (ns : Int) : Nat := (ns % (modulus : Int)).toNat

/-- Modelled from the spec: `Time.Since` is the wraparound-safe subtraction —
`(now - stamp) mod 2 ^ 56`, re-interpreted as signed so that values at or
above `2 ^ 55` count as (small) negative differences. -/
def since (now stamp : Nat) : Int :=
  let d := (now % modulus + modulus - stamp % modulus) % modulus
  if d < half then (d : Int) else (d : Int) - (modulus : Int)

/-- Modelled from the spec: `Time.Sub` subtracts a nanosecond count from a
timestamp, wrapping modulo `2 ^ 56`. -/
def sub (t : Nat) (d : Int) : Nat := (((t : Nat) - d : Int) % (modulus : Int)).toNat

/-- Modelled from the spec: `Time.Pack` combines a `uint8` level in the most
significant 8 bits with the 56-bit timestamp in the remaining bits of one
64-bit word. -/
def pack (t : Nat) (level : Nat) : Nat := level % 256 * modulus + t % modulus

/-- Modelled from the spec: `time56.Unpack` splits a packed 64-bit word back
into the `uint8` level (high 8 bits) and the 56-bit timestamp (low 56 bits).
Inverse of `pack` on in-range values. -/
def unpack (w : Nat) : Nat × Nat := (w / modulus % 256, w % modulus)

theorem unpack_pack (t level : Nat) (ht : t < modulus) (hl : level < 256) :
    unpack (pack t level) = (level, t) := by
  unfold unpack pack
  have hm : 0 < modulus := by decide
  rw [Nat.mod_eq_of_lt hl, Nat.mod_eq_of_lt ht]
  refine Prod.ext ?_ ?_
  · show (level * modulus + t) / modulus % 256 = level
    rw [Nat.mul_comm, Nat.mul_add_div hm, Nat.div_eq_of_lt ht]
    simpa using Nat.mod_eq_of_lt hl
  · show (level * modulus + t) % modulus = t
    rw [Nat.add_comm, Nat.add_mul_mod_self_right, Nat.mod_eq_of_lt ht]

theorem unix_lt (ns : Int) : unix ns < modulus := by
  unfold unix
  have h : (0 : Int) < (modulus : Int) := by decide
  have := Int.emod_lt_of_pos ns h
  omega

theorem sub_lt (t : Nat) (d : Int) : sub t d < modulus := by
  unfold sub
  have h : (0 : Int) < (modulus : Int) := by decide
  have := Int.emod_lt_of_pos ((t : Nat) - d : Int) h
  omega

theorem unpack_snd_lt (w : Nat) : (unpack w).2 < modulus := by
  unfold unpack
  exact Nat.mod_lt _ (by decide)

theorem unpack_fst_lt (w : Nat) : (unpack w).1 < 256 := by
  unfold unpack
  exact Nat.mod_lt _ (by decide)

/-- `since` of a stamp against itself is zero elapsed time. -/
theorem since_self (t : Nat) : since t t = 0 := by
  unfold since
  simp [half, modulus]

end time56

/-- A single token bucket: a `uint8` token count and a 56-bit wrapping
timestamp of the last refill (`tokenBucket` in `bucket.go`). The field
values are the numeric images of the Go fields; validity (`level < 256`,
`stamp < 2 ^ 56`) is carried as hypotheses where theorems need it. -/
structure tokenBucket where
  level : Nat
  stamp : Nat
deriving DecidableEq, Repr

/-- `newTokenBucket` from `bucket.go`. -/
def newTokenBucket (level : Nat) (stamp : Nat) : tokenBucket :=
  { level := level, stamp := stamp }

/-- `tokenBucket.refill` from `bucket.go`, embedded over `Nat`/`Int`:

* `elapsed := now.Since(b.stamp)` with the wraparound-safe `since`;
* Go's `int64` division and remainder truncate toward zero (`Int.tdiv`,
  `Int.tmod`); dividing by `rate = 0` is a Go runtime panic, modelled as
  `none`;
* `avail := maxLevel - b.level` is `uint8` subtraction (mod 256), and
  `b.level + uint8(tokens)` is `uint8` addition (mod 256), both spelled out;
* the comparison `b.level != level` and the final struct update follow the
  source line by line. -/
def tokenBucket.refill (b : tokenBucket) (nowNS rate : Int) (maxLevel : Nat) :
    Option tokenBucket :=
  let now := time56.unix nowNS
  let elapsed := time56.since now b.stamp
  if elapsed ≤ 0 then some b
  else if rate = 0 then none
  else
    let tokens := elapsed.tdiv rate
    if tokens ≤ 0 then some b
    else
      let avail : Nat := (maxLevel % 256 + 256 - b.level % 256) % 256
      let level : Nat :=
        if tokens < (avail : Int) then (b.level % 256 + tokens.toNat % 256) % 256
        else maxLevel % 256
      if b.level % 256 = level then some b
      else
        let remainder := elapsed.tmod rate
        some { level := level, stamp := time56.sub now remainder }

/-- `tokenBucket.take` from `bucket.go`: decrement if a token is available. -/
def tokenBucket.take (b : tokenBucket) : tokenBucket × Bool :=
  if 0 < b.level then ({ b with level := b.level - 1 }, true) else (b, false)

/-- `tokenBucket.packed` from `bucket.go`: level in the high 8 bits, stamp in
the low 56 bits. -/
def tokenBucket.packed (b : tokenBucket) : Nat := time56.pack b.stamp b.level

/-- `unpack` from `bucket.go`: inverse of `tokenBucket.packed`. -/
def unpackBucket (w : Nat) : tokenBucket :=
  newTokenBucket (time56.unpack w).1 (time56.unpack w).2

theorem unpackBucket_packed (b : tokenBucket) (hl : b.level < 256)
    (hs : b.stamp < time56.modulus) : unpackBucket b.packed = b := by
  unfold unpackBucket tokenBucket.packed newTokenBucket
  rw [time56.unpack_pack _ _ hs hl]

/-- The FNV-1a 64-bit offset basis used by `TokenBucketLimiter.index`. -/
def fnvOffset : Nat := 14695981039346656037

/-- The FNV-1a 64-bit prime used by `TokenBucketLimiter.index`. -/
def fnvPrime : Nat := 1099511628211

/-- One step of the hash loop body of `TokenBucketLimiter.index`:
`h ^= uint(b); h *= prime` over 64-bit `uint`. -/
def fnvStep (h b : Nat) : Nat := (h ^^^ b % 256) * fnvPrime % 2 ^ 64

/-- The hash loop of `TokenBucketLimiter.index` over the identifier bytes. -/
def fnvHash (id : List Nat) : Nat := id.foldl fnvStep fnvOffset

/-- `TokenBucketLimiter.index` from `bucket.go`: FNV-1a over the bytes of the
identifier, masked with `bucketMask`. -/
def indexOf (id : List Nat) (bucketMask : Nat) : Nat := fnvHash id &&& bucketMask

/-- `TokenBucketLimiter` from `bucket.go`. The bucket array is a list of
packed 64-bit words; `refillRate`/`refillRateUnit` are stored by the Go
struct but never read by the operations verified here, so they are omitted. -/
structure TokenBucketLimiter where
  buckets : List Nat
  bucketMask : Nat
  burstCapacity : Nat
  refillIntervalNanos : Int
  numBuckets : Nat
deriving DecidableEq, Repr

/-- `nanoRate` from `bucket.go`: the nanoseconds-per-token interval,
`int64(float64(refillRateUnit.Nanoseconds()) * refillRate)`. The `float64`
refill rate is embedded as an exact rational `rateNum / rateDen` (with
`rateDen > 0`; every finite `float64` value is such a rational), the
product is computed exactly, and the `int64(...)` conversion is Go's
truncation toward zero, i.e. `Int.tdiv`. The rounding of the `float64`
multiply itself is outside the embedding (it agrees with the exact product
at every concrete instance used below); the truncation toward zero — in
particular that products in `(-1, 0]` yield a zero interval — is modelled
exactly. -/
def nanoRate (refillRateUnitNanos : Int) (rateNum : Int) (rateDen : Int) :
    Int :=
  (refillRateUnitNanos * rateNum).tdiv rateDen

/-- `NewTokenBucketLimiter` from `bucket.go`: rejects a `numBuckets` that is
zero or not a power of two, otherwise fills every bucket with
`(burstCapacity, now)` packed. `none` is the error return. -/
def NewTokenBucketLimiter (numBuckets : Nat) (burstCapacity : Nat)
    (rateNum : Int) (rateDen : Int) (refillRateUnitNanos : Int)
    (nowNS : Int) : Option TokenBucketLimiter :=
  if numBuckets ≠ 0 ∧ numBuckets &&& (numBuckets - 1) = 0 then
    let stamp := time56.unix nowNS
    let bucket := newTokenBucket burstCapacity stamp
    let packed := bucket.packed
    some
      { buckets := List.replicate numBuckets packed
        bucketMask := numBuckets - 1
        burstCapacity := burstCapacity
        refillIntervalNanos := nanoRate refillRateUnitNanos rateNum rateDen
        numBuckets := numBuckets }
  else none

/-- `TokenBucketLimiter.checkInner` from `bucket.go`: load the word, refill
locally against `now`, report whether the refilled level is positive. No
write to the bucket array occurs in the source, and none is modelled. -/
def checkInner (buckets : List Nat) (index : Nat) (nowNS rate : Int)
    (burstCapacity : Nat) : Option Bool :=
  let existing := buckets.getD index 0
  let bucket := unpackBucket existing
  (bucket.refill nowNS rate burstCapacity).map (fun refilled => 0 < refilled.level)

/-- `TokenBucketLimiter.takeTokenInner` from `bucket.go`, as executed by a
single caller (no interference, so the CAS succeeds on the first attempt;
the contended loop is modelled separately as a transition system below):
load, refill, take, and write the updated word back only when it differs
from the decoded one. Returns the bucket array after the call and the
taken flag. -/
def takeTokenInner (buckets : List Nat) (index : Nat) (nowNS rate : Int)
    (burstCapacity : Nat) : Option (List Nat × Bool) :=
  let existing := buckets.getD index 0
  let unpacked := unpackBucket existing
  (unpacked.refill nowNS rate burstCapacity).map (fun refilled =>
    let taken := refilled.take
    if taken.1 ≠ unpacked then (buckets.set index taken.1.packed, taken.2)
    else (buckets, taken.2))

/-- `TokenBucketLimiter.Check` from `bucket.go`, with the clock reading
`nowNS` injected in place of `nowfn().UnixNano()`. -/
def TokenBucketLimiter.Check (t : TokenBucketLimiter) (id : List Nat)
    (nowNS : Int) : Option Bool :=
  checkInner t.buckets (indexOf id t.bucketMask) nowNS t.refillIntervalNanos
    t.burstCapacity

/-- `TokenBucketLimiter.TakeToken` from `bucket.go`, with the clock reading
injected; returns the limiter after the call together with the flag. -/
def TokenBucketLimiter.TakeToken (t : TokenBucketLimiter) (id : List Nat)
    (nowNS : Int) : Option (TokenBucketLimiter × Bool) :=
  (takeTokenInner t.buckets (indexOf id t.bucketMask) nowNS
      t.refillIntervalNanos t.burstCapacity).map
    (fun r => ({ t with buckets := r.1 }, r.2))

/-- A steady-state call against the public API: either a `Check` or a
`TakeToken` for some identifier at some clock reading. -/
inductive LimiterOp where
  | check (id : List Nat) (nowNS : Int) : LimiterOp
  | takeToken (id : List Nat) (nowNS : Int) : LimiterOp
deriving DecidableEq, Repr

/-- Applies one public-API call, returning the limiter afterwards and the
boolean answer (`none` models a Go panic inside `refill`). -/
def applyOp (t : TokenBucketLimiter) : LimiterOp → Option (TokenBucketLimiter × Bool)
  | .check id nowNS => (t.Check id nowNS).map (fun b => (t, b))
  | .takeToken id nowNS => t.TakeToken id nowNS

/-- Runs a sequence of public-API calls, threading the limiter state. -/
def runOps (t : TokenBucketLimiter) (ops : List LimiterOp) :
    Option TokenBucketLimiter :=
  ops.foldl (fun ot op => ot.bind (fun s => (applyOp s op).map Prod.fst)) (some t)

/-- Whether a call is a `Check` (used to state the frame property of `Check`
over whole call sequences in a decidable form). -/
def LimiterOp.isCheck : LimiterOp → Bool
  | .check _ _ => true
  | .takeToken _ _ => false

/-- The per-bucket trace of repeated `takeTokenInner` calls on one bucket:
each call refills against its clock reading and then attempts a take. The
second component counts the successful takes. -/
def takeSeqStep (rate : Int) (cap : Nat) (acc : Option (tokenBucket × Nat))
    (nowNS : Int) : Option (tokenBucket × Nat) :=
  acc.bind (fun p => (p.1.refill nowNS rate cap).map (fun r =>
    (r.take.1, if r.take.2 then p.2 + 1 else p.2)))

/-- Folds `takeSeqStep` over a list of clock readings, starting from a bucket
with zero successful takes so far. -/
def takeSeq (b : tokenBucket) (rate : Int) (cap : Nat) (times : List Int) :
    Option (tokenBucket × Nat) :=
  times.foldl (takeSeqStep rate cap) (some (b, 0))

theorem foldlOps_none (ops : List LimiterOp) :
    ops.foldl (fun ot op => ot.bind (fun s => (applyOp s op).map Prod.fst))
      none = none := by
  induction ops with
  | nil => rfl
  | cons op rest ih => simpa using ih

theorem runOps_cons (t : TokenBucketLimiter) (op : LimiterOp)
    (ops : List LimiterOp) :
    runOps t (op :: ops)
      = (applyOp t op).bind (fun p => runOps p.1 ops) := by
  unfold runOps
  rw [List.foldl_cons]
  cases h : applyOp t op with
  | none => simp [h, foldlOps_none]
  | some p => simp [h]

/-! ### Arithmetic helper lemmas -/

theorem tdiv_coe_coe (a b : Nat) :
    Int.tdiv (a : Int) (b : Int) = ((a / b : Nat) : Int) := by
  simp [Int.tdiv]

theorem tmod_coe_coe (a b : Nat) :
    Int.tmod (a : Int) (b : Int) = ((a % b : Nat) : Int) := by
  simp [Int.tmod]

theorem tdiv_nonpos_of_nonneg_of_neg (a b : Int) (ha : 0 ≤ a) (hb : b < 0) :
    a.tdiv b ≤ 0 := by
  obtain ⟨m, rfl⟩ := Int.eq_ofNat_of_zero_le ha
  obtain ⟨n, rfl⟩ := Int.eq_negSucc_of_lt_zero hb
  show -(Int.ofNat (m / n.succ)) ≤ 0
  have hnn : (0 : Int) ≤ Int.ofNat (m / n.succ) := Int.ofNat_nonneg _
  omega

/-- A nonzero natural is a power of two iff clearing its lowest set bit
yields zero — the test `numBuckets & (numBuckets - 1) == 0` used by
`NewTokenBucketLimiter`. -/
theorem and_pred_eq_zero_iff (n : Nat) (hn : n ≠ 0) :
    n &&& (n - 1) = 0 ↔ ∃ k, n = 2 ^ k := by
  constructor
  · intro h
    refine ⟨n.log2, ?_⟩
    by_contra hne
    have h1 : 2 ^ n.log2 ≤ n := Nat.log2_self_le hn
    have h2 : n < 2 ^ (n.log2 + 1) := Nat.lt_log2_self
    have hpow : 2 ^ (n.log2 + 1) = 2 * 2 ^ n.log2 := by
      rw [Nat.pow_succ, Nat.mul_comm]
    have hb1 : n.testBit n.log2 = true := by
      rw [Nat.testBit_to_div_mod]
      have : n / 2 ^ n.log2 = 1 := Nat.div_eq_of_lt_le (by omega) (by omega)
      simp [this]
    have hb2 : (n - 1).testBit n.log2 = true := by
      rw [Nat.testBit_to_div_mod]
      have : (n - 1) / 2 ^ n.log2 = 1 := Nat.div_eq_of_lt_le (by omega) (by omega)
      simp [this]
    have := congrArg (fun x => x.testBit n.log2) h
    simp only [Nat.testBit_and, hb1, hb2, Nat.zero_testBit, Bool.and_self] at this
    exact Bool.noConfusion this
  · rintro ⟨k, rfl⟩
    refine Nat.eq_of_testBit_eq fun i => ?_
    rw [Nat.testBit_and, Nat.zero_testBit, Nat.testBit_two_pow_sub_one,
      Nat.testBit_two_pow]
    rcases eq_or_ne k i with h | h
    · subst h; simp
    · simp [h]

/-! ### Claims C6, C9, C8, C3, C10 -/

/-- Claim C6: `NewTokenBucketLimiter` returns its error (and no limiter) iff
`numBuckets` is zero or not a power of two. The `Option` result carries no
partial state on the error path. The concrete accepted values 1, 2, 4, 64
and rejected values 3, 5, 6 are instances of the iff. -/
theorem newLimiter_error_iff_not_pow2 (numBuckets burstCapacity : Nat)
    (rateNum rateDen refillRateUnitNanos nowNS : Int) :
    NewTokenBucketLimiter numBuckets burstCapacity rateNum rateDen
        refillRateUnitNanos nowNS = none
      ↔ ¬ ∃ k, numBuckets = 2 ^ k := by
  constructor
  · rintro hnone ⟨k, rfl⟩
    have h0 : (2 : Nat) ^ k ≠ 0 := (Nat.pos_pow_of_pos k (by norm_num)).ne'
    have hand : 2 ^ k &&& (2 ^ k - 1) = 0 :=
      (and_pred_eq_zero_iff _ h0).mpr ⟨k, rfl⟩
    unfold NewTokenBucketLimiter at hnone
    rw [if_pos ⟨h0, hand⟩] at hnone
    exact Option.some_ne_none _ hnone
  · intro hnot
    unfold NewTokenBucketLimiter
    rw [if_neg]
    rintro ⟨hne, hand⟩
    exact hnot ((and_pred_eq_zero_iff _ hne).mp hand)

/-- Claim C9: for every constructed limiter, the bucket index of an
identifier is its 64-bit FNV-1a hash masked with `numBuckets - 1`, and the
index always lands in `[0, numBuckets)`. Determinism is immediate since
`indexOf` is a pure function of the identifier and the mask fixed at
construction. -/
theorem index_eq_fnv_masked (t : TokenBucketLimiter)
    (numBuckets burstCapacity : Nat)
    (rateNum rateDen refillRateUnitNanos nowNS : Int) (id : List Nat)
    (h : NewTokenBucketLimiter numBuckets burstCapacity rateNum rateDen
        refillRateUnitNanos nowNS = some t) :
    indexOf id t.bucketMask = fnvHash id &&& (numBuckets - 1) ∧
    indexOf id t.bucketMask < numBuckets := by
  unfold NewTokenBucketLimiter at h
  split at h
  case isTrue hcond =>
    obtain ⟨hne, -⟩ := hcond
    obtain rfl := Option.some.inj h
    refine ⟨rfl, ?_⟩
    have hle : fnvHash id &&& (numBuckets - 1) ≤ numBuckets - 1 :=
      Nat.and_le_right
    show fnvHash id &&& (numBuckets - 1) < numBuckets
    omega
  case isFalse => exact absurd h (Option.noConfusion)

/-- Claim C8: `Check` has no observable side effect on the shared bucket
array: the limiter returned by a `check` call is the one passed in, every
packed bucket word is untouched, and a whole sequence of `Check` calls
leaves the limiter exactly where it started. -/
theorem check_has_no_side_effect (t t' : TokenBucketLimiter) (id : List Nat)
    (nowNS : Int) (p : TokenBucketLimiter × Bool) (ops : List LimiterOp)
    (happ : applyOp t (.check id nowNS) = some p)
    (hops : ∀ op ∈ ops, op.isCheck = true)
    (hrun : runOps t ops = some t') :
    p.1 = t ∧ p.1.buckets = t.buckets ∧ t' = t := by
  have h1 : p.1 = t := by
    simp only [applyOp] at happ
    cases hc : TokenBucketLimiter.Check t id nowNS with
    | none => rw [hc] at happ; exact absurd happ (Option.noConfusion)
    | some b =>
      rw [hc] at happ
      obtain rfl := Option.some.inj happ
      rfl
  refine ⟨h1, by rw [h1], ?_⟩
  clear happ h1
  induction ops generalizing t with
  | nil => exact (Option.some.inj hrun).symm
  | cons op rest ih =>
    have hop := hops op (by simp)
    cases op with
    | takeToken id2 now2 => simp [LimiterOp.isCheck] at hop
    | check id2 now2 =>
      rw [runOps_cons] at hrun
      cases hc : TokenBucketLimiter.Check t id2 now2 with
      | none => simp [applyOp, hc] at hrun
      | some b =>
        simp only [applyOp, hc, Option.map_some, Option.bind_some] at hrun
        exact ih t (fun o ho => hops o (by simp [ho])) hrun

theorem refill_isSome (b : tokenBucket) (nowNS rate : Int) (cap : Nat)
    (h : rate ≠ 0) : (b.refill nowNS rate cap).isSome = true := by
  simp only [tokenBucket.refill]
  by_cases he : time56.since (time56.unix nowNS) b.stamp ≤ 0
  · rw [if_pos he]
    rfl
  · rw [if_neg he, if_neg h]
    split
    · rfl
    · split <;> split <;> rfl

/-- Claim C3 (counterexample): with `refillRate = 0` the derived
`refillIntervalNanos` is zero, and the very first `TakeToken` or `Check`
after any positive elapsed time reaches the division `elapsed / rate` with a
zero divisor — a Go runtime panic (`none`), not a boolean return. -/
theorem check_take_rate_zero_panic :
    (NewTokenBucketLimiter 1 5 0 1 1000000000 0).map
        (fun t => t.refillIntervalNanos) = some 0 ∧
    (NewTokenBucketLimiter 1 5 0 1 1000000000 0).bind
        (fun t => (t.TakeToken [120] 1).map Prod.snd) = none ∧
    (NewTokenBucketLimiter 1 5 0 1 1000000000 0).bind
        (fun t => t.Check [120] 1) = none := by decide

/-- Claim C3 (amended): `Check` and `TakeToken` terminate normally with a
boolean for every limiter state, identifier and clock reading, provided the
limiter's `refillIntervalNanos` is nonzero; a zero interval panics on the
first call with positive elapsed time (see the counterexample). -/
theorem check_take_total_of_rate_ne_zero (t : TokenBucketLimiter)
    (id : List Nat) (nowNS : Int) (h : t.refillIntervalNanos ≠ 0) :
    (t.Check id nowNS).isSome = true ∧ (t.TakeToken id nowNS).isSome = true := by
  have hs := refill_isSome
    (unpackBucket (t.buckets.getD (indexOf id t.bucketMask) 0)) nowNS
    t.refillIntervalNanos t.burstCapacity h
  obtain ⟨r, hr⟩ := Option.isSome_iff_exists.mp hs
  constructor
  · simp only [TokenBucketLimiter.Check, checkInner]
    rw [hr]
    rfl
  · simp only [TokenBucketLimiter.TakeToken, takeTokenInner]
    rw [hr]
    rfl

/-- Witness for the amended C3 at a concrete limiter and clock reading. -/
theorem check_take_total_of_rate_ne_zero_witness :
    ((⟨[360287970189639680], 0, 5, 1000000000, 1⟩ :
        TokenBucketLimiter).Check [120] 5).isSome = true ∧
    ((⟨[360287970189639680], 0, 5, 1000000000, 1⟩ :
        TokenBucketLimiter).TakeToken [120] 5).isSome = true :=
  check_take_total_of_rate_ne_zero _ [120] 5 (by decide)

theorem refill_of_neg_rate (b : tokenBucket) (nowNS rate : Int) (cap : Nat)
    (h : rate < 0) : b.refill nowNS rate cap = some b := by
  simp only [tokenBucket.refill]
  by_cases he : time56.since (time56.unix nowNS) b.stamp ≤ 0
  · rw [if_pos he]
  · rw [if_neg he, if_neg (by omega : ¬ rate = 0),
      if_pos (tdiv_nonpos_of_nonneg_of_neg _ _ (by omega) h)]

theorem takeSeq_conserves (rate : Int) (cap : Nat) (h : rate < 0)
    (times : List Int) :
    ∀ p res : tokenBucket × Nat,
      times.foldl (takeSeqStep rate cap) (some p) = some res →
      res.2 + res.1.level = p.2 + p.1.level := by
  induction times with
  | nil =>
    intro p res hr
    obtain rfl := Option.some.inj hr
    rfl
  | cons tm rest ih =>
    intro p res hr
    rw [List.foldl_cons] at hr
    have hstep : takeSeqStep rate cap (some p) tm
        = some (p.1.take.1, if p.1.take.2 then p.2 + 1 else p.2) := by
      unfold takeSeqStep
      simp [refill_of_neg_rate _ _ _ _ h]
    rw [hstep] at hr
    have hsum := ih _ _ hr
    unfold tokenBucket.take at hsum
    split at hsum <;> simp at hsum <;> omega

theorem tdiv_neg_of_le_neg (a b : Int) (h : a ≤ -b) (hb : 0 < b) :
    a.tdiv b < 0 := by
  obtain ⟨n, rfl⟩ := Int.eq_succ_of_zero_lt hb
  have ha : a < 0 := by omega
  obtain ⟨m, rfl⟩ := Int.eq_negSucc_of_lt_zero ha
  show -(Int.ofNat (m.succ / n.succ)) < 0
  have h1 : n.succ ≤ m.succ := by
    have := Int.negSucc_eq m
    omega
  have h2 : 1 ≤ m.succ / n.succ := (Nat.one_le_div_iff (Nat.succ_pos n)).mpr h1
  have h3 : (0 : Int) < Int.ofNat (m.succ / n.succ) := Int.ofNat_pos.mpr (by omega)
  omega

/-- Claim C10 (counterexample): `nanoRate` does not produce a negative
interval for every negative `refillRate`. At `refillRate = -1/10^10` with a
one-second unit, the exact product is `-1/10`, and `int64` truncation
toward zero makes the interval `0`, not negative; the limiter built from
this negative refill rate then panics (divide by zero) on the first
`TakeToken` after 1 ns of elapsed time instead of leaving the bucket
unchanged. -/
theorem negative_refill_rate_zero_interval :
    nanoRate 1000000000 (-1) 10000000000 = 0 ∧
    (NewTokenBucketLimiter 1 5 (-1) 10000000000 1000000000 0).map
        (fun t => t.refillIntervalNanos) = some 0 ∧
    (NewTokenBucketLimiter 1 5 (-1) 10000000000 1000000000 0).bind
        (fun t => (t.TakeToken [120] 1).map Prod.snd) = none := by decide

/-- Claim C10 (amended): a negative per-token rate never refills — `refill`
returns the bucket unchanged because `elapsed / rate` truncates to a
nonpositive token count whenever `elapsed > 0` — so any sequence of take
attempts on such a bucket succeeds at most `level` (hence at most
`burstCapacity`) times, with the success count plus the remaining level
conserved. `nanoRate` yields such a negative rate whenever the exact
product `unit * refillRate` is at most `-1` (e.g. any integer
`refillRate ≤ -1` with a positive unit) — but not for every negative
`refillRate`: truncation toward zero sends products in `(-1, 0)` to a zero
interval, which panics instead (see the counterexample). -/
theorem negative_rate_never_refills (b : tokenBucket) (nowNS rate : Int)
    (cap : Nat) (times : List Int) (res : tokenBucket × Nat)
    (unitNanos rateNum rateDen : Int) (hr : rate < 0)
    (hseq : takeSeq b rate cap times = some res)
    (hden : 0 < rateDen) (hprod : unitNanos * rateNum ≤ -rateDen) :
    b.refill nowNS rate cap = some b ∧
    res.2 + res.1.level = b.level ∧ res.2 ≤ b.level ∧
    nanoRate unitNanos rateNum rateDen < 0 := by
  have hsum := takeSeq_conserves rate cap hr times (b, 0) res hseq
  simp only [Nat.zero_add] at hsum
  exact ⟨refill_of_neg_rate b nowNS rate cap hr, hsum, by omega,
    tdiv_neg_of_le_neg _ _ hprod hden⟩

/-- Witness for the amended C10 at a concrete bucket, rate and call
sequence. -/
theorem negative_rate_never_refills_witness :
    tokenBucket.refill ⟨3, 0⟩ 100 (-5) 5 = some ⟨3, 0⟩ ∧
    (3 : Nat) + (⟨0, 0⟩ : tokenBucket).level = (3 : Nat) ∧ (3 : Nat) ≤ 3 ∧
    nanoRate 1000000000 (-2) 1 < 0 :=
  negative_rate_never_refills ⟨3, 0⟩ 100 (-5) 5 [1, 2, 3, 4] (⟨0, 0⟩, 3)
    1000000000 (-2) 1 (by decide) (by decide) (by decide) (by decide)

/-- Witness for C9 at a concrete constructed limiter and identifier. -/
theorem index_eq_fnv_masked_witness :
    indexOf [120] (⟨List.replicate 4 360287970189639680, 3, 5, 1000000000, 4⟩ :
        TokenBucketLimiter).bucketMask = fnvHash [120] &&& (4 - 1) ∧
    indexOf [120] (⟨List.replicate 4 360287970189639680, 3, 5, 1000000000, 4⟩ :
        TokenBucketLimiter).bucketMask < 4 :=
  index_eq_fnv_masked _ 4 5 1 1 1000000000 0 [120] (by decide)

/-- Witness for C8 at a concrete limiter, check call and check sequence. -/
theorem check_has_no_side_effect_witness :
    ((⟨[360287970189639680], 0, 5, 1000000000, 1⟩ : TokenBucketLimiter),
        true).1 = ⟨[360287970189639680], 0, 5, 1000000000, 1⟩ ∧
    ((⟨[360287970189639680], 0, 5, 1000000000, 1⟩ : TokenBucketLimiter),
        true).1.buckets
      = (⟨[360287970189639680], 0, 5, 1000000000, 1⟩ :
          TokenBucketLimiter).buckets ∧
    (⟨[360287970189639680], 0, 5, 1000000000, 1⟩ : TokenBucketLimiter)
      = ⟨[360287970189639680], 0, 5, 1000000000, 1⟩ :=
  check_has_no_side_effect _ _ [120] 0 _ [.check [120] 0, .check [120] 7]
    (by decide) (by decide) (by decide)

/-- Folds `TakeToken` calls over a list of clock readings, collecting the
boolean answers in order. -/
def takeResults (t : TokenBucketLimiter) (id : List Nat) (times : List Int) :
    Option (TokenBucketLimiter × List Bool) :=
  times.foldl (fun acc nowNS => acc.bind (fun p =>
    (p.1.TakeToken id nowNS).map (fun r => (r.1, p.2 ++ [r.2])))) (some (t, []))

/-- Claim C7: the concrete scenario — limiter with one bucket, burst
capacity 5, one token per second; at time 0 five `TakeToken("x")` calls
succeed and the sixth fails; one second later one more succeeds and the
next fails. -/
theorem concrete_scenario_take_pattern :
    (NewTokenBucketLimiter 1 5 1 1 1000000000 0).bind
        (fun t => (takeResults t [120]
          [0, 0, 0, 0, 0, 0, 1000000000, 1000000000]).map Prod.snd)
      = some [true, true, true, true, true, false, true, false] := by decide

/-! ### The refill algorithm against the specification text (C1) -/

theorem fdiv_coe_coe (a b : Nat) :
    Int.fdiv (a : Int) (b : Int) = ((a / b : Nat) : Int) := by
  cases a with
  | zero => simp
  | succ a' => rfl

theorem fmod_coe_coe (a b : Nat) :
    Int.fmod (a : Int) (b : Int) = ((a % b : Nat) : Int) := by
  cases a with
  | zero => simp [Int.fmod]
  | succ a' => rfl

theorem fdiv_nonpos_of_nonneg_of_neg (a b : Int) (ha : 0 ≤ a) (hb : b < 0) :
    a.fdiv b ≤ 0 := by
  obtain ⟨m, rfl⟩ := Int.eq_ofNat_of_zero_le ha
  obtain ⟨n, rfl⟩ := Int.eq_negSucc_of_lt_zero hb
  cases m with
  | zero => simp
  | succ m' => exact le_of_lt (Int.negSucc_lt_zero _)

/-- The wrapping difference really is a difference: adding `since now stamp`
back to `stamp` recovers `now` modulo `2 ^ 56`. -/
theorem since_add_stamp (now stamp : Nat) (hn : now < time56.modulus)
    (_hsl : stamp < time56.modulus) :
    ((stamp : Int) + time56.since now stamp) % ((2 : Int) ^ 56) = (now : Int) := by
  simp only [time56.since, time56.half, time56.modulus] at *
  split <;> omega

/-- The refill algorithm exactly as §4.2 of the spec words it, kept for
refinement against `tokenBucket.refill`: wraparound-safe elapsed time,
floor division for the accrued tokens, `min` against the capacity, and —
when and only when the level changed — the stamp advanced by
`elapsed - (elapsed mod rate)`. -/
def specRefill (b : tokenBucket) (nowNS rate : Int) (cap : Nat) : tokenBucket :=
  let elapsed := time56.since (time56.unix nowNS) b.stamp
  if elapsed ≤ 0 then b
  else
    let tokensAccrued := elapsed.fdiv rate
    if tokensAccrued ≤ 0 then b
    else
      let level := min cap (b.level + tokensAccrued.toNat)
      if level = b.level then b
      else
        { level := level
          stamp := (((b.stamp : Int) + (elapsed - elapsed.fmod rate))
            % ((time56.modulus : Nat) : Int)).toNat }

/-- Claim C1: on every valid bucket (`level ≤ capacity < 256`, 56-bit stamp)
and every nonzero rate, `tokenBucket.refill` computes exactly the bucket the
spec's §4.2 algorithm prescribes: unchanged when the wraparound-safe elapsed
time or the accrued token count is nonpositive, otherwise the level clamped
by `min` at capacity, with the stamp advanced by the whole-token time
`elapsed - (elapsed mod rate)` iff the level changed (a zero rate instead
panics — settled separately under C3). -/
theorem refill_follows_spec (b : tokenBucket) (nowNS rate : Int) (cap : Nat)
    (hrate : rate ≠ 0) (hlevel : b.level ≤ cap) (hcap : cap < 256)
    (hstamp : b.stamp < time56.modulus) :
    b.refill nowNS rate cap = some (specRefill b nowNS rate cap) := by
  have hnow : time56.unix nowNS < time56.modulus := time56.unix_lt nowNS
  simp only [tokenBucket.refill, specRefill]
  by_cases he : time56.since (time56.unix nowNS) b.stamp ≤ 0
  · rw [if_pos he, if_pos he]
  · rw [if_neg he, if_neg he, if_neg hrate]
    push_neg at he
    obtain ⟨dN, hdN⟩ := Int.eq_ofNat_of_zero_le he.le
    rcases lt_or_gt_of_ne hrate with hneg | hpos
    · have ht : (time56.since (time56.unix nowNS) b.stamp).tdiv rate ≤ 0 :=
        tdiv_nonpos_of_nonneg_of_neg _ _ he.le hneg
      have hf : (time56.since (time56.unix nowNS) b.stamp).fdiv rate ≤ 0 :=
        fdiv_nonpos_of_nonneg_of_neg _ _ he.le hneg
      rw [if_pos ht, if_pos hf]
    · obtain ⟨rN, hrN⟩ := Int.eq_ofNat_of_zero_le hpos.le
      have hrNpos : 0 < rN := by omega
      have hcong : ((b.stamp : Int) + (dN : Int)) % ((2 : Int) ^ 56)
          = ((time56.unix nowNS : Nat) : Int) := by
        have := since_add_stamp (time56.unix nowNS) b.stamp hnow hstamp
        rw [hdN] at this
        exact this
      rw [hdN, hrN, tdiv_coe_coe, fdiv_coe_coe, tmod_coe_coe, fmod_coe_coe]
      by_cases hq0 : dN / rN = 0
      · rw [if_pos (by simp [hq0]), if_pos (by simp [hq0])]
      · have hqpos : 0 < dN / rN := Nat.pos_of_ne_zero hq0
        rw [if_neg (by exact_mod_cast by omega : ¬ ((dN / rN : Nat) : Int) ≤ 0),
          if_neg (by exact_mod_cast by omega : ¬ ((dN / rN : Nat) : Int) ≤ 0)]
        have havail : (cap % 256 + 256 - b.level % 256) % 256 = cap - b.level := by
          omega
        rw [havail]
        have hstampEq : time56.sub (time56.unix nowNS) ((dN % rN : Nat) : Int)
            = (((b.stamp : Int) + ((dN : Int) - ((dN % rN : Nat) : Int)))
              % ((time56.modulus : Nat) : Int)).toNat := by
          unfold time56.sub
          congr 1
          simp only [time56.modulus] at *
          omega
        by_cases hlt : dN / rN < cap - b.level
        · have hcast : ((dN / rN : Nat) : Int) < ((cap - b.level : Nat) : Int) := by
            exact_mod_cast hlt
          rw [if_pos hcast]
          have hlvl : (b.level % 256 + ((dN / rN : Nat) : Int).toNat % 256) % 256
              = b.level + dN / rN := by
            simp only [Int.toNat_ofNat]
            omega
          have hmin : min cap (b.level + ((dN / rN : Nat) : Int).toNat)
              = b.level + dN / rN := by
            simp only [Int.toNat_ofNat]
            omega
          rw [hlvl, hmin]
          by_cases hch : b.level % 256 = b.level + dN / rN
          · rw [if_pos hch, if_pos (by omega : b.level + dN / rN = b.level)]
          · rw [if_neg hch, if_neg (by omega : ¬ b.level + dN / rN = b.level),
              hstampEq]
        · have hcast : ¬ ((dN / rN : Nat) : Int) < ((cap - b.level : Nat) : Int) := by
            exact_mod_cast hlt
          rw [if_neg hcast]
          have hmin : min cap (b.level + ((dN / rN : Nat) : Int).toNat) = cap := by
            simp only [Int.toNat_ofNat]
            omega
          rw [hmin]
          by_cases hch : b.level % 256 = cap % 256
          · rw [if_pos hch, if_pos (by omega : cap = b.level)]
          · rw [if_neg hch, if_neg (by omega : ¬ cap = b.level), hstampEq]
            have : cap % 256 = cap := by omega
            rw [this]

/-- Witness for C1 at a concrete bucket, clock reading and rate. -/
theorem refill_follows_spec_witness :
    tokenBucket.refill ⟨2, 0⟩ 7 2 5 = some (specRefill ⟨2, 0⟩ 7 2 5) :=
  refill_follows_spec ⟨2, 0⟩ 7 2 5 (by decide) (by decide) (by decide) (by decide)

/-! ### The capacity invariant (C2) -/

/-- Every packed word in a bucket array decodes to a level within the burst
capacity. -/
def BucketsInv (cap : Nat) (buckets : List Nat) : Prop :=
  ∀ w ∈ buckets, (unpackBucket w).level ≤ cap

instance (cap : Nat) (buckets : List Nat) : Decidable (BucketsInv cap buckets) := by
  unfold BucketsInv
  infer_instance

theorem refill_level_le (b b' : tokenBucket) (nowNS rate : Int) (cap : Nat)
    (hlevel : b.level ≤ cap) (hcap : cap < 256)
    (h : b.refill nowNS rate cap = some b') : b'.level ≤ cap := by
  simp only [tokenBucket.refill] at h
  repeat' split at h
  all_goals try exact Option.noConfusion h
  all_goals obtain rfl := Option.some.inj h
  all_goals try dsimp only
  all_goals omega

theorem refill_stamp_lt (b b' : tokenBucket) (nowNS rate : Int) (cap : Nat)
    (hstamp : b.stamp < time56.modulus)
    (h : b.refill nowNS rate cap = some b') : b'.stamp < time56.modulus := by
  simp only [tokenBucket.refill] at h
  repeat' split at h
  all_goals try exact Option.noConfusion h
  all_goals obtain rfl := Option.some.inj h
  all_goals try dsimp only
  all_goals first | exact hstamp | exact time56.sub_lt _ _

theorem take_level_le (b : tokenBucket) (cap : Nat) (h : b.level ≤ cap) :
    b.take.1.level ≤ cap := by
  unfold tokenBucket.take
  split <;> dsimp only <;> omega

theorem take_stamp (b : tokenBucket) : b.take.1.stamp = b.stamp := by
  unfold tokenBucket.take
  split <;> rfl

theorem take_level_lt (b : tokenBucket) (hb : b.level < 256) :
    b.take.1.level < 256 := by
  unfold tokenBucket.take
  split <;> dsimp only <;> omega

theorem unpack_pack_fst (t level : Nat) (ht : t < time56.modulus) :
    (time56.unpack (time56.pack t level)).1 = level % 256 := by
  unfold time56.unpack time56.pack
  simp only [time56.modulus] at ht ⊢
  omega

theorem bucketsInv_getD (cap : Nat) (buckets : List Nat)
    (hinv : BucketsInv cap buckets) (i : Nat) :
    (unpackBucket (buckets.getD i 0)).level ≤ cap := by
  by_cases hi : i < buckets.length
  · refine hinv _ ?_
    rw [List.getD_eq_getElem buckets 0 hi]
    exact List.getElem_mem hi
  · rw [List.getD_eq_default _ _ (by omega)]
    show (unpackBucket 0).level ≤ cap
    simp [unpackBucket, time56.unpack, newTokenBucket]

theorem takeTokenInner_inv (buckets : List Nat) (index : Nat) (nowNS rate : Int)
    (cap : Nat) (hcap : cap < 256) (hinv : BucketsInv cap buckets)
    (res : List Nat × Bool)
    (h : takeTokenInner buckets index nowNS rate cap = some res) :
    BucketsInv cap res.1 := by
  simp only [takeTokenInner] at h
  cases hr : (unpackBucket (buckets.getD index 0)).refill nowNS rate cap with
  | none => rw [hr] at h; exact absurd h (by simp)
  | some refilled =>
    rw [hr] at h
    simp only [Option.map_some'] at h
    obtain rfl := Option.some.inj h
    have hb : (unpackBucket (buckets.getD index 0)).level ≤ cap :=
      bucketsInv_getD cap buckets hinv index
    have hbs : (unpackBucket (buckets.getD index 0)).stamp < time56.modulus :=
      time56.unpack_snd_lt _
    have hrl : refilled.level ≤ cap := refill_level_le _ _ _ _ _ hb hcap hr
    have hrs : refilled.stamp < time56.modulus :=
      refill_stamp_lt _ _ _ _ _ hbs hr
    have htl : refilled.take.1.level ≤ cap := take_level_le _ _ hrl
    split
    · intro w hw
      rcases List.mem_or_eq_of_mem_set hw with hmem | rfl
      · exact hinv w hmem
      · rw [unpackBucket_packed _ (by omega) (by rw [take_stamp]; exact hrs)]
        exact htl
    · exact hinv

theorem newLimiter_inv (n cap : Nat) (rateNum rateDen unit nowNS : Int)
    (t : TokenBucketLimiter)
    (h : NewTokenBucketLimiter n cap rateNum rateDen unit nowNS = some t) :
    BucketsInv cap t.buckets ∧ t.burstCapacity = cap := by
  unfold NewTokenBucketLimiter at h
  split at h
  · obtain rfl := Option.some.inj h
    refine ⟨?_, rfl⟩
    intro w hw
    obtain rfl := List.eq_of_mem_replicate hw
    unfold unpackBucket tokenBucket.packed newTokenBucket
    dsimp only
    rw [unpack_pack_fst _ _ (time56.unix_lt nowNS)]
    omega
  · exact absurd h (Option.noConfusion)

theorem runOps_inv (cap : Nat) (hcap : cap < 256) :
    ∀ (ops : List LimiterOp) (t t' : TokenBucketLimiter),
      t.burstCapacity = cap → BucketsInv cap t.buckets →
      runOps t ops = some t' →
      BucketsInv cap t'.buckets ∧ t'.burstCapacity = cap := by
  intro ops
  induction ops with
  | nil =>
    intro t t' hc hinv h
    obtain rfl := Option.some.inj h
    exact ⟨hinv, hc⟩
  | cons op rest ih =>
    intro t t' hc hinv h
    rw [runOps_cons] at h
    cases hap : applyOp t op with
    | none => rw [hap] at h; exact absurd h (by simp)
    | some p =>
      rw [hap] at h
      simp only [Option.some_bind] at h
      have hp : BucketsInv cap p.1.buckets ∧ p.1.burstCapacity = cap := by
        cases op with
        | check id now =>
          simp only [applyOp] at hap
          cases hcheck : t.Check id now with
          | none => rw [hcheck] at hap; exact absurd hap (by simp)
          | some v =>
            rw [hcheck] at hap
            simp only [Option.map_some'] at hap
            obtain rfl := Option.some.inj hap
            exact ⟨hinv, hc⟩
        | takeToken id now =>
          simp only [applyOp, TokenBucketLimiter.TakeToken] at hap
          cases hti : takeTokenInner t.buckets (indexOf id t.bucketMask) now
              t.refillIntervalNanos t.burstCapacity with
          | none => rw [hti] at hap; exact absurd hap (by simp)
          | some r =>
            rw [hti] at hap
            simp only [Option.map_some'] at hap
            obtain rfl := Option.some.inj hap
            refine ⟨?_, hc⟩
            subst hc
            exact takeTokenInner_inv _ _ _ _ _ hcap hinv _ hti
      exact ih p.1 t' hp.2 hp.1 h

/-- Claim C2: the capacity invariant. On valid states (`cap < 256`, the
`uint8` range): a refill bounded by `maxLevel = cap` keeps the decoded level
within `[0, cap]` (nonnegativity is inherent to the `Nat` embedding of the
`uint8` field), a take keeps it within `[0, cap]`, and every limiter built
by `NewTokenBucketLimiter` keeps every bucket's decoded level within
`[0, cap]` across every sequence of `Check`/`TakeToken` calls. -/
theorem capacity_invariant (cap n : Nat) (b b' : tokenBucket)
    (nowNS rate crateNum crateDen cunit cnow : Int)
    (t0 t1 : TokenBucketLimiter)
    (ops : List LimiterOp) (hcap : cap < 256) (hb : b.level ≤ cap)
    (hre : b.refill nowNS rate cap = some b')
    (hnew : NewTokenBucketLimiter n cap crateNum crateDen cunit cnow = some t0)
    (hrun : runOps t0 ops = some t1) :
    b'.level ≤ cap ∧ b.take.1.level ≤ cap ∧ BucketsInv cap t1.buckets := by
  have h0 := newLimiter_inv n cap crateNum crateDen cunit cnow t0 hnew
  exact ⟨refill_level_le _ _ _ _ _ hb hcap hre, take_level_le _ _ hb,
    (runOps_inv cap hcap ops t0 t1 h0.2 h0.1 hrun).1⟩

/-- Witness for C2 at a concrete bucket, limiter and call sequence. -/
theorem capacity_invariant_witness :
    (⟨5, 6⟩ : tokenBucket).level ≤ 5 ∧
    (⟨2, 0⟩ : tokenBucket).take.1.level ≤ 5 ∧
    BucketsInv 5
      (⟨[288230376151711744], 0, 5, 1000000000, 1⟩ :
        TokenBucketLimiter).buckets :=
  capacity_invariant 5 1 ⟨2, 0⟩ ⟨5, 6⟩ 7 2 1 1 1000000000 0
    ⟨[360287970189639680], 0, 5, 1000000000, 1⟩
    ⟨[288230376151711744], 0, 5, 1000000000, 1⟩ [.takeToken [120] 0]
    (by decide) (by decide) (by decide) (by decide) (by decide)

/-! ### Non-drift (C4) -/

/-- Folds refill calls over a list of clock readings, threading the bucket
(`none` propagates a panic, which cannot occur at a positive rate). -/
def refillSeq (b : tokenBucket) (rate : Int) (cap : Nat) (times : List Int) :
    Option tokenBucket :=
  times.foldl (fun acc nowNS => acc.bind (fun x => x.refill nowNS rate cap))
    (some b)

/-- The bucket state reached `d` nanoseconds after a bucket `⟨L, s0⟩` was
stamped, refilling at `r` nanoseconds per token without drift: `d / r` whole
tokens credited and the stamp advanced by exactly the spent `r * (d / r)`. -/
def driftState (L s0 r d : Nat) : tokenBucket :=
  ⟨L + d / r, (s0 + r * (d / r)) % time56.modulus⟩

theorem unix_coe (x : Nat) : time56.unix (x : Int) = x % time56.modulus := by
  unfold time56.unix
  simp only [time56.modulus]
  omega

theorem since_offset (s0 d : Nat) (hsl : s0 < time56.modulus)
    (hd : d < time56.half) :
    time56.since ((s0 + d) % time56.modulus) s0 = (d : Int) := by
  simp only [time56.since, time56.half, time56.modulus] at *
  split <;> omega

theorem sub_offset (s0 d r : Nat) :
    time56.sub ((s0 + d) % time56.modulus) ((d % r : Nat) : Int)
      = (s0 + r * (d / r)) % time56.modulus := by
  unfold time56.sub
  have hdm := Nat.div_add_mod d r
  simp only [time56.modulus] at *
  omega

theorem refill_offset (L s0 cap r d : Nat) (hs : s0 < time56.modulus)
    (hcap : cap < 256) (hr : 0 < r) (hL : L + d / r ≤ cap)
    (hd : d < time56.half) :
    tokenBucket.refill ⟨L, s0⟩ (((s0 + d) % time56.modulus : Nat) : Int)
        (r : Int) cap
      = some (driftState L s0 r d) := by
  simp only [tokenBucket.refill]
  rw [unix_coe, Nat.mod_mod_of_dvd _ dvd_rfl, since_offset s0 d hs hd,
    tdiv_coe_coe, tmod_coe_coe]
  rcases Nat.eq_zero_or_pos (d / r) with hq0 | hqpos
  · have hds : driftState L s0 r d = ⟨L, s0⟩ := by
      unfold driftState
      rw [hq0, Nat.mul_zero, Nat.add_zero, Nat.add_zero, Nat.mod_eq_of_lt hs]
    rw [hds]
    rcases Nat.eq_zero_or_pos d with rfl | hd0
    · rw [if_pos (by simp : (((0 : Nat) : Int) ≤ 0))]
    · rw [if_neg (by omega : ¬ ((d : Nat) : Int) ≤ 0),
        if_neg (by omega : ¬ ((r : Nat) : Int) = 0),
        if_pos (by omega : (((d / r : Nat) : Int) ≤ 0))]
  · have hdr : r ≤ d := (Nat.one_le_div_iff hr).mp hqpos
    have hLlt : L < cap := by omega
    rw [if_neg (by omega : ¬ ((d : Nat) : Int) ≤ 0),
      if_neg (by omega : ¬ ((r : Nat) : Int) = 0),
      if_neg (by omega : ¬ ((d / r : Nat) : Int) ≤ 0)]
    have havail : (cap % 256 + 256 - L % 256) % 256 = cap - L := by omega
    rw [havail]
    by_cases hlt : d / r < cap - L
    · rw [if_pos (by exact_mod_cast hlt :
        ((d / r : Nat) : Int) < ((cap - L : Nat) : Int))]
      have hlvl : (L % 256 + ((d / r : Nat) : Int).toNat % 256) % 256
          = L + d / r := by
        simp only [Int.toNat_ofNat]
        omega
      rw [hlvl, if_neg (by omega : ¬ L % 256 = L + d / r), sub_offset s0 d r]
      rfl
    · rw [if_neg (by exact_mod_cast hlt :
        ¬ ((d / r : Nat) : Int) < ((cap - L : Nat) : Int))]
      have hceq : cap % 256 = L + d / r := by omega
      rw [if_neg (by omega : ¬ L % 256 = cap % 256), sub_offset s0 d r, hceq]
      rfl

theorem refillSeq_chain (cap r L s0 : Nat) (hcap : cap < 256) (hr : 0 < r)
    (_hs : s0 < time56.modulus) :
    ∀ (ds : List Nat) (d0 E : Nat),
      List.Chain' (· ≤ ·) (d0 :: ds) →
      (∀ d ∈ d0 :: ds, d < time56.half) →
      (∀ d ∈ d0 :: ds, L + d / r ≤ cap) →
      (d0 :: ds).getLast? = some E →
      refillSeq (driftState L s0 r d0) (r : Int) cap
          (ds.map (fun d => (((s0 + d) % time56.modulus : Nat) : Int)))
        = some (driftState L s0 r E) := by
  intro ds
  induction ds with
  | nil =>
    intro d0 E _ _ _ hlast
    obtain rfl := Option.some.inj hlast
    rfl
  | cons d1 rest ih =>
    intro d0 E hchain hhalf hbound hlast
    obtain ⟨h01, hchain'⟩ := List.chain'_cons.mp hchain
    have hA0 : r * (d0 / r) ≤ d0 := by
      have h := Nat.div_mul_le_self d0 r
      calc r * (d0 / r) = d0 / r * r := Nat.mul_comm _ _
        _ ≤ d0 := h
    have hd01 : r * (d0 / r) ≤ d1 := le_trans hA0 h01
    have hqq : (d1 - r * (d0 / r)) / r = d1 / r - d0 / r :=
      Nat.sub_mul_div d1 r (d0 / r) hd01
    have hle : d0 / r ≤ d1 / r := Nat.div_le_div_right h01
    have hbound1 := hbound d1 (by simp)
    have hhalf1 := hhalf d1 (by simp)
    have hstep : (driftState L s0 r d0).refill
        (((s0 + d1) % time56.modulus : Nat) : Int) (r : Int) cap
        = some (driftState L s0 r d1) := by
      have hkey := refill_offset (L + d0 / r)
        ((s0 + r * (d0 / r)) % time56.modulus) cap r (d1 - r * (d0 / r))
        (Nat.mod_lt _ (by decide)) hcap hr (by rw [hqq]; omega) (by omega)
      have hnow : ((s0 + r * (d0 / r)) % time56.modulus + (d1 - r * (d0 / r)))
          % time56.modulus = (s0 + d1) % time56.modulus := by
        simp only [time56.modulus] at *
        omega
      rw [hnow] at hkey
      have hmulsum : r * (d0 / r) + r * (d1 / r - d0 / r) = r * (d1 / r) := by
        rw [← Nat.mul_add]
        congr 1
        omega
      have hres : driftState (L + d0 / r)
          ((s0 + r * (d0 / r)) % time56.modulus) r (d1 - r * (d0 / r))
          = driftState L s0 r d1 := by
        unfold driftState
        rw [hqq]
        simp only [tokenBucket.mk.injEq, time56.modulus] at *
        constructor
        · omega
        · omega
      rw [hres] at hkey
      exact hkey
    show refillSeq _ _ _ (List.map _ (d1 :: rest)) = _
    unfold refillSeq
    rw [List.map_cons, List.foldl_cons]
    simp only [Option.some_bind]
    rw [hstep]
    have hlast' : (d1 :: rest).getLast? = some E := by
      rw [← List.getLast?_cons_cons (a := d0)]
      exact hlast
    have hres := ih d1 E hchain'
      (fun d hd => hhalf d (List.mem_cons_of_mem _ hd))
      (fun d hd => hbound d (List.mem_cons_of_mem _ hd)) hlast'
    unfold refillSeq at hres
    exact hres

/-- Claim C4: non-drift. For a bucket `⟨L, s0⟩`, a positive rate `r` and a
monotone sequence of call offsets ending at `E` (all within the wraparound
window), repeated refills credit exactly `floor(E / r)` tokens in total when
the bucket does not saturate: the fold over all intermediate calls equals
the single refill performed at the final instant, whose level is exactly
`L + E / r` and whose stamp advanced by exactly `r * (E / r)`. -/
theorem non_drift (L s0 cap r E : Nat) (ds : List Nat)
    (hs : s0 < time56.modulus) (hcap : cap < 256) (hr : 0 < r)
    (hsat : L + E / r ≤ cap) (hchain : List.Chain' (· ≤ ·) ds)
    (hmem : ∀ d ∈ ds, d ≤ E) (hE : E < time56.half)
    (hlast : ds.getLast? = some E) :
    refillSeq ⟨L, s0⟩ (r : Int) cap
        (ds.map (fun d => (((s0 + d) % time56.modulus : Nat) : Int)))
      = tokenBucket.refill ⟨L, s0⟩ (((s0 + E) % time56.modulus : Nat) : Int)
          (r : Int) cap ∧
    tokenBucket.refill ⟨L, s0⟩ (((s0 + E) % time56.modulus : Nat) : Int)
        (r : Int) cap
      = some ⟨L + E / r, (s0 + r * (E / r)) % time56.modulus⟩ := by
  have hone := refill_offset L s0 cap r E hs hcap hr hsat hE
  have hds0 : driftState L s0 r 0 = ⟨L, s0⟩ := by
    unfold driftState
    rw [Nat.zero_div, Nat.mul_zero, Nat.add_zero, Nat.add_zero,
      Nat.mod_eq_of_lt hs]
  cases ds with
  | nil => exact absurd hlast (by simp)
  | cons d1 rest =>
    have hchain0 : List.Chain' (· ≤ ·) (0 :: d1 :: rest) :=
      List.Chain'.cons' hchain (fun y _ => Nat.zero_le y)
    have hhalf0 : ∀ d ∈ 0 :: d1 :: rest, d < time56.half := by
      intro d hd
      rcases List.mem_cons.mp hd with rfl | hd'
      · exact lt_of_le_of_lt (Nat.zero_le E) hE
      · exact lt_of_le_of_lt (hmem d hd') hE
    have hbound0 : ∀ d ∈ 0 :: d1 :: rest, L + d / r ≤ cap := by
      intro d hd
      rcases List.mem_cons.mp hd with rfl | hd'
      · rw [Nat.zero_div]
        exact le_trans (by omega) (le_trans (Nat.le_add_right L (E / r)) hsat)
      · exact le_trans (Nat.add_le_add_left
          (Nat.div_le_div_right (hmem d hd')) L) hsat
    have hlast0 : (0 :: d1 :: rest).getLast? = some E := by
      rw [List.getLast?_cons_cons]
      exact hlast
    have hchainres := refillSeq_chain cap r L s0 hcap hr hs (d1 :: rest) 0 E
      hchain0 hhalf0 hbound0 hlast0
    rw [hds0] at hchainres
    exact ⟨by rw [hchainres, hone], hone⟩

/-- Witness for C4: three polls at offsets 1, 3, 4 ns with a 2 ns/token rate
reach the same bucket as one refill at offset 4. -/
theorem non_drift_witness :
    refillSeq ⟨1, 3⟩ ((2 : Nat) : Int) 5
        ([1, 3, 4].map (fun d => (((3 + d) % time56.modulus : Nat) : Int)))
      = tokenBucket.refill ⟨1, 3⟩ (((3 + 4) % time56.modulus : Nat) : Int)
          ((2 : Nat) : Int) 5 ∧
    tokenBucket.refill ⟨1, 3⟩ (((3 + 4) % time56.modulus : Nat) : Int)
        ((2 : Nat) : Int) 5
      = some ⟨1 + 4 / 2, (3 + 2 * (4 / 2)) % time56.modulus⟩ :=
  non_drift 1 3 5 2 4 [1, 3, 4] (by decide) (by decide) (by decide)
    (by decide) (by simp [List.chain'_cons]) (by decide) (by decide) (by decide)

/-! ### The CAS retry protocol under interleaving (C5) -/

/-- The local state of one thread executing `takeTokenInner`'s retry loop on
a fixed bucket index: about to load the shared word, holding a loaded word,
or returned with a boolean. -/
inductive TState where
  | ready : TState
  | loaded : Nat → TState
  | done : Bool → TState
deriving DecidableEq, Repr

/-- Whether a thread has returned. -/
def TState.isDone : TState → Bool
  | .done _ => true
  | _ => false

/-- A configuration of the contended bucket: the shared packed word and the
local states of the racing threads. -/
structure Config where
  word : Nat
  threads : List TState
deriving DecidableEq, Repr

/-- Number of threads that have returned `true`, i.e. taken a token. -/
def countTrue (ts : List TState) : Nat :=
  ts.countP (fun s => decide (s = TState.done true))

/-- One interleaved step of the CAS protocol of `takeTokenInner`, following
the loop of `bucket.go` line by line: a thread either loads the shared word,
returns without writing because its candidate equals the decoded word,
installs its candidate with a successful compare-and-swap (the shared word
is still the one it loaded), or loses the race (the word changed since its
load) and retries from a fresh load. `nowNS`, `rate` and `cap` are the fixed
call parameters. -/
inductive Step (nowNS rate : Int) (cap : Nat) : Config → Config → Prop
  | load (c : Config) (i : Nat)
      (h : c.threads.get? i = some TState.ready) :
      Step nowNS rate cap c ⟨c.word, c.threads.set i (TState.loaded c.word)⟩
  | noWrite (c : Config) (i : Nat) (w : Nat) (refilled : tokenBucket)
      (h : c.threads.get? i = some (TState.loaded w))
      (hr : (unpackBucket w).refill nowNS rate cap = some refilled)
      (heq : refilled.take.1 = unpackBucket w) :
      Step nowNS rate cap c
        ⟨c.word, c.threads.set i (TState.done refilled.take.2)⟩
  | casOk (c : Config) (i : Nat) (w : Nat) (refilled : tokenBucket)
      (h : c.threads.get? i = some (TState.loaded w))
      (hr : (unpackBucket w).refill nowNS rate cap = some refilled)
      (hne : refilled.take.1 ≠ unpackBucket w) (hw : c.word = w) :
      Step nowNS rate cap c
        ⟨refilled.take.1.packed, c.threads.set i (TState.done refilled.take.2)⟩
  | casFail (c : Config) (i : Nat) (w : Nat) (refilled : tokenBucket)
      (h : c.threads.get? i = some (TState.loaded w))
      (hr : (unpackBucket w).refill nowNS rate cap = some refilled)
      (hne : refilled.take.1 ≠ unpackBucket w) (hw : c.word ≠ w) :
      Step nowNS rate cap c ⟨c.word, c.threads.set i TState.ready⟩

theorem refill_zero_elapsed (b : tokenBucket) (nowNS rate : Int) (cap : Nat)
    (hstamp : b.stamp = time56.unix nowNS) :
    b.refill nowNS rate cap = some b := by
  simp only [tokenBucket.refill]
  rw [hstamp, time56.since_self, if_pos (le_refl (0 : Int))]

theorem take_eq_self_iff (b : tokenBucket) : b.take.1 = b ↔ b.level = 0 := by
  unfold tokenBucket.take
  split
  case isTrue hpos =>
    dsimp only
    constructor
    · intro h
      have hl := congrArg tokenBucket.level h
      dsimp only at hl
      omega
    · intro h
      omega
  case isFalse hneg =>
    dsimp only
    constructor
    · intro _
      omega
    · intro _
      rfl

theorem take_of_pos (b : tokenBucket) (h : 0 < b.level) :
    b.take = ({ b with level := b.level - 1 }, true) := by
  unfold tokenBucket.take
  rw [if_pos h]

theorem take_of_zero (b : tokenBucket) (h : b.level = 0) :
    b.take = (b, false) := by
  unfold tokenBucket.take
  rw [if_neg (by omega)]

theorem countP_set (p : TState → Bool) :
    ∀ (ts : List TState) (i : Nat) (old new : TState),
      ts.get? i = some old →
      (ts.set i new).countP p + (if p old then 1 else 0)
        = ts.countP p + (if p new then 1 else 0) := by
  intro ts
  induction ts with
  | nil =>
    intro i old new h
    cases h
  | cons a ts ih =>
    intro i old new h
    cases i with
    | zero =>
      obtain rfl := Option.some.inj h
      simp only [List.set, List.countP_cons]
      omega
    | succ j =>
      simp only [List.get?] at h
      simp only [List.set, List.countP_cons]
      have := ih j old new h
      omega

theorem step_length (nowNS rate : Int) (cap : Nat) (c c' : Config)
    (h : Step nowNS rate cap c c') : c'.threads.length = c.threads.length := by
  cases h <;> simp [List.length_set]

/-- Invariant of the zero-elapsed contention scenario: the stamp never
moves, the shared level plus the number of successful takes is constant,
every loaded word is a stale-or-current snapshot (same stamp, level at
least the current shared level), and a thread can only have returned
`false` once the shared bucket was empty. -/
def Inv (s0 L0 : Nat) (c : Config) : Prop :=
  (unpackBucket c.word).stamp = s0 ∧
  (unpackBucket c.word).level + countTrue c.threads = L0 ∧
  (∀ w, TState.loaded w ∈ c.threads →
    (unpackBucket w).stamp = s0 ∧
    (unpackBucket c.word).level ≤ (unpackBucket w).level) ∧
  (TState.done false ∈ c.threads → (unpackBucket c.word).level = 0)

theorem inv_step (nowNS rate : Int) (cap s0 : Nat) (L0 : Nat)
    (hnow : time56.unix nowNS = s0) (c c' : Config)
    (hstep : Step nowNS rate cap c c') (hinv : Inv s0 L0 c) : Inv s0 L0 c' := by
  obtain ⟨hstamp, hcount, hloaded, hfalse⟩ := hinv
  have hs0 : s0 < time56.modulus := hnow ▸ time56.unix_lt nowNS
  cases hstep with
  | load i h =>
    refine ⟨hstamp, ?_, ?_, ?_⟩
    · have hset := countP_set (fun s => decide (s = TState.done true))
        c.threads i TState.ready (TState.loaded c.word) h
      simp only [countTrue] at hcount ⊢
      simp only [decide_eq_true_eq] at hset
      rw [if_neg (by simp), if_neg (by simp)] at hset
      omega
    · intro w hw
      rcases List.mem_or_eq_of_mem_set hw with hmem | heq2
      · exact hloaded w hmem
      · obtain rfl := TState.loaded.inj heq2
        exact ⟨hstamp, le_refl _⟩
    · intro hdf
      rcases List.mem_or_eq_of_mem_set hdf with hmem | heq2
      · exact hfalse hmem
      · cases heq2
  | noWrite i w refilled h hr heq =>
    have hwmem := List.get?_mem h
    have hw' := hloaded w hwmem
    rw [refill_zero_elapsed _ _ _ _ (by rw [hw'.1, hnow])] at hr
    obtain rfl := Option.some.inj hr
    have hlvl0 : (unpackBucket w).level = 0 := (take_eq_self_iff _).mp heq
    have htk := take_of_zero (unpackBucket w) hlvl0
    have hle := hw'.2
    refine ⟨hstamp, ?_, ?_, ?_⟩
    · have hset := countP_set (fun s => decide (s = TState.done true))
        c.threads i (TState.loaded w) (TState.done (unpackBucket w).take.2) h
      simp only [countTrue] at hcount ⊢
      simp only [decide_eq_true_eq] at hset
      rw [if_neg (by simp), if_neg (by simp [htk])] at hset
      omega
    · intro w2 hw2
      rcases List.mem_or_eq_of_mem_set hw2 with hmem | heq2
      · exact hloaded w2 hmem
      · cases heq2
    · intro _
      dsimp only
      omega
  | casOk i w refilled h hr hne hw =>
    have hwmem := List.get?_mem h
    have hw' := hloaded w hwmem
    rw [refill_zero_elapsed _ _ _ _ (by rw [hw'.1, hnow])] at hr
    obtain rfl := Option.some.inj hr
    have hlvlpos : 0 < (unpackBucket w).level := by
      rcases Nat.eq_zero_or_pos (unpackBucket w).level with h0 | hp
      · exact absurd ((take_eq_self_iff _).mpr h0) hne
      · exact hp
    have htk := take_of_pos (unpackBucket w) hlvlpos
    have hnew : unpackBucket (unpackBucket w).take.1.packed
        = (unpackBucket w).take.1 := by
      refine unpackBucket_packed _ ?_ ?_
      · rw [htk]
        have := time56.unpack_fst_lt w
        simp only [unpackBucket, newTokenBucket] at *
        omega
      · rw [htk]
        show (unpackBucket w).stamp < time56.modulus
        exact hw'.1 ▸ hs0
    refine ⟨?_, ?_, ?_, ?_⟩
    · show (unpackBucket (unpackBucket w).take.1.packed).stamp = s0
      rw [hnew, htk]
      exact hw'.1
    · show (unpackBucket (unpackBucket w).take.1.packed).level
          + countTrue (c.threads.set i (TState.done (unpackBucket w).take.2))
        = L0
      rw [hnew, htk]
      have hset := countP_set (fun s => decide (s = TState.done true))
        c.threads i (TState.loaded w) (TState.done (unpackBucket w).take.2) h
      simp only [countTrue] at hcount ⊢
      simp only [decide_eq_true_eq] at hset
      rw [if_neg (by simp), if_pos (by rw [htk])] at hset
      simp only [htk] at hset
      have hweq : (unpackBucket c.word).level = (unpackBucket w).level := by
        rw [hw]
      try dsimp only
      omega
    · intro w2 hw2
      rcases List.mem_or_eq_of_mem_set hw2 with hmem | heq2
      · have h2 := hloaded w2 hmem
        refine ⟨h2.1, ?_⟩
        rw [hnew, htk]
        have hweq : (unpackBucket c.word).level = (unpackBucket w).level := by
          rw [hw]
        try dsimp only
        omega
      · cases heq2
    · intro hdf
      rcases List.mem_or_eq_of_mem_set hdf with hmem | heq2
      · have h0 := hfalse hmem
        have hweq : (unpackBucket c.word).level = (unpackBucket w).level := by
          rw [hw]
        omega
      · rw [htk] at heq2
        cases heq2
  | casFail i w refilled h hr hne hw =>
    refine ⟨hstamp, ?_, ?_, ?_⟩
    · have hset := countP_set (fun s => decide (s = TState.done true))
        c.threads i (TState.loaded w) TState.ready h
      simp only [countTrue] at hcount ⊢
      simp only [decide_eq_true_eq] at hset
      rw [if_neg (by simp), if_neg (by simp)] at hset
      omega
    · intro w2 hw2
      rcases List.mem_or_eq_of_mem_set hw2 with hmem | heq2
      · exact hloaded w2 hmem
      · cases heq2
    · intro hdf
      rcases List.mem_or_eq_of_mem_set hdf with hmem | heq2
      · exact hfalse hmem
      · cases heq2

/-- Claim C5: under the interleaved CAS protocol, launching `k` concurrent
`TakeToken` calls against one full bucket (level = `burstCapacity`) with no
elapsed time yields, in every completed execution, exactly
`min k burstCapacity` successes — for `k = burstCapacity`, every call
succeeds and exactly one token is removed per success (the invariant keeps
`level + successes` constant), so no two callers ever consume the same
token. -/
theorem takeToken_concurrent_count (nowNS rate : Int) (cap s0 k : Nat)
    (c : Config) (hnow : time56.unix nowNS = s0) (hcap : cap < 256)
    (htrace : Relation.ReflTransGen (Step nowNS rate cap)
      ⟨time56.pack s0 cap, List.replicate k TState.ready⟩ c)
    (hterm : ∀ s ∈ c.threads, s.isDone = true) :
    countTrue c.threads = min k cap := by
  have hs0 : s0 < time56.modulus := hnow ▸ time56.unix_lt nowNS
  have hinit : Inv s0 cap ⟨time56.pack s0 cap, List.replicate k TState.ready⟩ := by
    refine ⟨?_, ?_, ?_, ?_⟩
    · show (unpackBucket (time56.pack s0 cap)).stamp = s0
      unfold unpackBucket newTokenBucket
      rw [time56.unpack_pack _ _ hs0 hcap]
    · show (unpackBucket (time56.pack s0 cap)).level + countTrue _ = cap
      unfold unpackBucket newTokenBucket
      rw [time56.unpack_pack _ _ hs0 hcap]
      have hzero : countTrue (List.replicate k TState.ready) = 0 := by
        simp [countTrue, List.countP_eq_zero]
      rw [hzero]
      rfl
    · intro w hw
      have := List.eq_of_mem_replicate hw
      cases this
    · intro hdf
      have := List.eq_of_mem_replicate hdf
      cases this
  have hmain : Inv s0 cap c ∧ c.threads.length = k := by
    clear hterm
    induction htrace with
    | refl => exact ⟨hinit, by simp⟩
    | tail hab hbc ih =>
      obtain ⟨hinvb, hlenb⟩ := ih
      exact ⟨inv_step nowNS rate cap s0 cap hnow _ _ hbc hinvb,
        (step_length nowNS rate cap _ _ hbc).trans hlenb⟩
  obtain ⟨⟨hstamp, hcount, hloaded, hfalse⟩, hlen⟩ := hmain
  by_cases hdf : TState.done false ∈ c.threads
  · have hlvl0 := hfalse hdf
    have hle : countTrue c.threads ≤ c.threads.length :=
      List.countP_le_length _
    omega
  · have hall : ∀ s ∈ c.threads, s = TState.done true := by
      intro s hsmem
      have hd := hterm s hsmem
      cases s with
      | ready => simp [TState.isDone] at hd
      | loaded w => simp [TState.isDone] at hd
      | done b =>
        cases b with
        | false => exact absurd hsmem hdf
        | true => rfl
    have hcnt : countTrue c.threads = c.threads.length := by
      apply List.countP_eq_length.mpr
      intro a ha
      rw [hall a ha]
      simp
    omega

/-- Witness for C5: one thread against a bucket of one token; the completed
trace loads and CAS-installs, with exactly `min 1 1 = 1` success. -/
theorem takeToken_concurrent_count_witness :
    countTrue [TState.done true] = min 1 1 :=
  takeToken_concurrent_count 0 5 1 0 1 ⟨0, [TState.done true]⟩ (by decide)
    (by decide)
    (Relation.ReflTransGen.tail
      (Relation.ReflTransGen.tail Relation.ReflTransGen.refl
        (Step.load _ 0 (by decide)))
      (Step.casOk _ 0 72057594037927936 ⟨1, 0⟩ (by decide) (by decide)
        (by decide) (by decide)))
    (by decide)

end Rate
